import Mathlib

/-!
Verification development for the pyaccel tracking layer.

The repository is a Python marshalling layer (src/pyaccel/tracking.py, with a
legacy variant in src/tracking.py) around an external native tracking engine
(the trackcpp library, which is a separate repository and is treated here as
an opaque interface).  The embedding below models:

  - phase-space positions and the marshalling helpers between python lists or
    numpy rows and the native CppDoublePos structure;
  - the input-shape inference of _process_args (single particle given as a
    flat python list or tuple, versus many particles given as a list of lists,
    tuple of tuples, or a numpy array);
  - the tracking entry points element_pass, line_pass, ring_pass and the orbit
    routines find_orbit4 and find_orbit6, with the native engine represented
    by opaque result parameters (a function from the marshalled input position
    to the data the native wrapper writes back);
  - the legacy elementpass of src/tracking.py, which uses a coordinate-first
    array layout.

Coordinates are modelled as rationals: every claim under study is about array
shapes, orderings and forwarding of native data, none is about floating-point
rounding, so an exact field is a faithful carrier for the marshalling logic.
Numpy arrays are modelled by rank: a rank-1 array is a list of coordinates, a
rank-2 array is a list of rows, a rank-3 array is a list of matrices.
-/

/-- Native phase-space position structure of the trackcpp interface, with the
six coordinates rx, px, ry, py, de, dl (CppDoublePos). -/
structure CppDoublePos where
  rx : ℚ
  px : ℚ
  ry : ℚ
  py : ℚ
  de : ℚ
  dl : ℚ
deriving DecidableEq, Repr

/-- Marshalling of a python list or numpy row into a native position, reading
entries 0..5 in the fixed order rx, px, ry, py, de, dl
(src/pyaccel/tracking.py, _Numpy2CppDoublePos).  A list with fewer than six
entries raises an IndexError in python, modelled by none. -/
def _Numpy2CppDoublePos : List ℚ → Option CppDoublePos
  | a :: b :: c :: d :: e :: f :: _ => some ⟨a, b, c, d, e, f⟩
  | _ => none

/-- Marshalling of a 4-component transverse position into a native position
with de and dl zeroed (src/pyaccel/tracking.py, _4Numpy2CppDoublePos). -/
def _4Numpy2CppDoublePos : List ℚ → Option CppDoublePos
  | a :: b :: c :: d :: _ => some ⟨a, b, c, d, 0, 0⟩
  | _ => none

/-- Marshalling of a native position back to a numpy row, restoring the six
components in the fixed order rx, px, ry, py, de, dl
(src/pyaccel/tracking.py, _CppDoublePos2Numpy). -/
def _CppDoublePos2Numpy (p : CppDoublePos) : List ℚ :=
  [p.rx, p.px, p.ry, p.py, p.de, p.dl]

/-- Marshalling of a native position to its 4 transverse components
(src/pyaccel/tracking.py, _CppDoublePos24Numpy). -/
def _CppDoublePos24Numpy (p : CppDoublePos) : List ℚ :=
  [p.rx, p.px, p.ry, p.py]

/-- Shapes in which a particles argument can be supplied to the tracking
routines, following the forms documented and dispatched on by _process_args:
a flat python list or tuple of scalar coordinates, a python list of lists or
tuple of tuples, a 1-D numpy array, or a 2-D numpy array. -/
inductive PyParticles where
  | flat (cs : List ℚ)
  | nested (rows : List (List ℚ))
  | nd1 (cs : List ℚ)
  | nd2 (rows : List (List ℚ))
deriving DecidableEq, Repr

/-- Shape inference of src/pyaccel/tracking.py, _process_args (particles
part): a flat python list or tuple becomes a 1 x len array with
return_ndarray set to False; a list of lists or tuple of tuples becomes the
corresponding 2-D array with return_ndarray True; a 1-D numpy array is
reshaped to 1 x len keeping return_ndarray True; a 2-D numpy array passes
through with return_ndarray True.  The result is the processed rank-2 array
(as a list of particle rows) together with return_ndarray. -/
def _process_args : PyParticles → List (List ℚ) × Bool
  | .flat cs => ([cs], false)
  | .nested rows => (rows, true)
  | .nd1 cs => ([cs], true)
  | .nd2 rows => (rows, true)

/-- Values of the indices argument of line_pass as documented: None, the
string open, the string closed, or a sequence of element indices. -/
inductive PyIndices where
  | iNone
  | iOpen
  | iClosed
  | iList (l : List ℕ)
deriving DecidableEq, Repr

/-- Index processing of src/pyaccel/tracking.py, _process_args (indices
part): the string open becomes range(len(accelerator)), the string closed
becomes range(len(accelerator)+1), a sequence passes through, None stays
None. -/
def _process_indices (accLen : ℕ) : PyIndices → Option (List ℕ)
  | .iNone => none
  | .iOpen => some (List.range accLen)
  | .iClosed => some (List.range (accLen + 1))
  | .iList l => some l

/-- Numpy arrays of the three ranks the tracking routines produce. -/
inductive NpArray where
  | r1 (v : List ℚ)
  | r2 (m : List (List ℚ))
  | r3 (t : List (List (List ℚ)))
deriving DecidableEq, Repr

/-- Transpose of a rectangular rank-2 array whose rows have length ncols
(the column count is supplied from the static allocation shape of the numpy
array being transposed). -/
def npT (ncols : ℕ) (m : List (List ℚ)) : List (List ℚ) :=
  (List.range ncols).map (fun c => m.map (fun row => row.getD c 0))

/-- Transpose of a rectangular rank-2 array, inferring the column count from
the first row, as numpy does from the array shape. -/
def npTranspose (m : List (List ℚ)) : List (List ℚ) :=
  npT (m.headD []).length m

/-- Column i of a rank-2 array. -/
def npCol (m : List (List ℚ)) (i : ℕ) : List ℚ :=
  m.map (fun row => row.getD i 0)

/-- Numpy .T: the transpose of a 1-D array is itself, a 2-D array is
transposed. -/
def npTA : NpArray → NpArray
  | .r1 v => .r1 v
  | .r2 m => .r2 (npTranspose m)
  | .r3 t => .r3 t

/-- Errors the python layer can raise: TrackingException with a missing
argument message, a bare TrackingException on element-pass loss, a
TrackingException forwarding a native error message, a TrackingException for
an invalid indices value, and the python-level IndexError and ValueError
that under- and mis-sized arrays raise. -/
inductive TrackErr where
  | missingArg (key : String)
  | trackLost
  | nativeError (msg : String)
  | invalidIndices (fname : String)
  | indexError
  | shapeError
deriving DecidableEq, Repr

/-- Python for-loop over a list with exception propagation: apply f to each
item in order, stopping at the first exception. -/
def loopE {α β : Type} (f : α → Except TrackErr β) : List α → Except TrackErr (List β)
  | [] => .ok []
  | a :: as => do
    let b ← f a
    let bs ← loopE f as
    pure (b :: bs)

/-- Raise e when the optional value is absent. -/
def ofOption {α : Type} (e : TrackErr) : Option α → Except TrackErr α
  | some a => .ok a
  | none => .error e

/-- The five keyword arguments element_pass requires, in the fixed order the
source checks them (src/pyaccel/tracking.py, keys_needed). -/
def keys_needed : List String :=
  ["energy", "harmonic_number", "cavity_on", "radiation_on", "vchamber_on"]

/-- First key of the given list of needed keys that is not among the supplied
keyword arguments, mirroring the validation loop of element_pass that raises
at the first missing key. -/
def checkKeys : List String → List String → Option String
  | [], _ => none
  | k :: ks, kw => if k ∈ kw then checkKeys ks kw else some k

/-- Per-particle body of the element_pass loop: marshal the row into a native
position, invoke the native element-pass wrapper (modelled as the function
track from the input position to the pair of the lost flag the wrapper
returns and the final position it writes back into p_in), raise a bare
TrackingException when the wrapper reports loss, and unmarshal the final
position (src/pyaccel/tracking.py, element_pass loop body). -/
def trackRow (track : CppDoublePos → Bool × CppDoublePos) (row : List ℚ) :
    Except TrackErr (List ℚ) := do
  let p ← ofOption .indexError (_Numpy2CppDoublePos row)
  let r := track p
  if r.1 then .error .trackLost else .ok (_CppDoublePos2Numpy r.2)

/-- Embedding of src/pyaccel/tracking.py element_pass.  The keyword arguments
are modelled by the list of keys actually supplied (only their presence is
validated by the source); the accelerator construction is opaque and cannot
fail in the model; the native element-pass wrapper is the parameter track.
The function validates the five needed keys in order, infers the particle
shape with _process_args, tracks each particle row, and simplifies the output
to a 1-D array when there is a single particle that was given as a flat
python list. -/
def element_pass (track : CppDoublePos → Bool × CppDoublePos)
    (kwargs : List String) (particles : PyParticles) :
    Except TrackErr NpArray :=
  match checkKeys keys_needed kwargs with
  | some k => .error (.missingArg k)
  | none =>
    let pr := _process_args particles
    match loopE (trackRow track) pr.1 with
    | .error e => .error e
    | .ok outs =>
      if pr.1.length = 1 ∧ pr.2 = false then .ok (.r1 (outs.headD []))
      else .ok (.r2 outs)

/-- Shape inference of the legacy src/tracking.py _process_args: python lists
and tuples are converted to arrays and transposed, giving the coordinate-first
layout (6 x Np); numpy inputs pass through unchanged (the legacy code has no
reshaping branch for numpy arrays). -/
def legacy_process_args : PyParticles → NpArray × Bool
  | .flat cs => (.r2 (npTranspose [cs]), false)
  | .nested rows => (.r2 (npTranspose rows), true)
  | .nd1 cs => (.r1 cs, true)
  | .nd2 rows => (.r2 rows, true)

/-- Per-particle body of the legacy elementpass loop over columns: marshal
column i, track, raise on loss, and write the six components back into
column i, which requires the array to have exactly six rows
(src/tracking.py, elementpass loop body). -/
def legacy_trackCol (track : CppDoublePos → Bool × CppDoublePos)
    (nrows : ℕ) (col : List ℚ) : Except TrackErr (List ℚ) := do
  let p ← ofOption .indexError (_Numpy2CppDoublePos col)
  let r := track p
  if r.1 then .error .trackLost
  else if nrows = 6 then .ok (_CppDoublePos2Numpy r.2)
  else .error .shapeError

/-- Embedding of the legacy src/tracking.py elementpass, which keeps
particles in a coordinate-first (6 x Np) layout and iterates over columns.
A 1-D numpy input raises an IndexError when the legacy code reads
particles.shape[1]. -/
def elementpass (track : CppDoublePos → Bool × CppDoublePos)
    (kwargs : List String) (particles : PyParticles) :
    Except TrackErr NpArray :=
  match checkKeys keys_needed kwargs with
  | some k => .error (.missingArg k)
  | none =>
    match legacy_process_args particles with
    | (.r1 _, _) => .error .indexError
    | (.r3 _, _) => .error .indexError
    | (.r2 m, ndarr) =>
      let nrows := m.length
      let ncols := (m.headD []).length
      match loopE (fun i => legacy_trackCol track nrows (npCol m i))
          (List.range ncols) with
      | .error e => .error e
      | .ok cols =>
        let particles_out := npT nrows cols
        if ncols = 1 ∧ ndarr = false then .ok (.r1 (npCol particles_out 0))
        else .ok (.r2 particles_out)

/-- Opaque result of a native closed-orbit solver call (track_findorbit4 or
track_findorbit6): the integer return code r and the contents of the
CppDoublePosVector the solver fills with the orbit at each element. -/
structure NativeOrbitResult where
  code : ℤ
  orbit : ℕ → CppDoublePos

/-- Values of the indices argument of the orbit routines: None, the strings
open and closed, a sequence of element indices, or any other value (which the
source rejects with a TrackingException). -/
inductive OrbitIndices where
  | oiNone
  | oiOpen
  | oiClosed
  | oiList (l : List ℕ)
  | oiOther
deriving DecidableEq, Repr

/-- Rows of the closed-indices orbit array: a zero-initialised (k+1)-row
array whose first k rows are filled from the native orbit and whose last row
is then overwritten with the first row (closed_orbit[-1] = closed_orbit[0]
in find_orbit4 and find_orbit6). -/
def closedRows (k : ℕ) (row : ℕ → List ℚ) (z : List ℚ) : List (List ℚ) :=
  let rows := (List.range (k + 1)).map (fun i => if i < k then row i else z)
  rows.set k (rows.headD z)

/-- Embedding of src/pyaccel/tracking.py find_orbit4.  The native solver call
is opaque: its return code and orbit vector are the parameter res, and the
native error message table string_error_messages is the parameter msgs.  The
fixed-point guess is marshalled first (4 components required, de is then set
to energy_offset), the native return code is checked, and the orbit array for
the requested indices is built and returned transposed. -/
def find_orbit4 (msgs : ℤ → String) (res : NativeOrbitResult) (accLen : ℕ)
    (energy_offset : ℚ) (indices : OrbitIndices)
    (fixed_point_guess : Option (List ℚ)) : Except TrackErr NpArray :=
  match (match fixed_point_guess with
         | none => some (⟨0, 0, 0, 0, 0, 0⟩ : CppDoublePos)
         | some l => _4Numpy2CppDoublePos l) with
  | none => .error .indexError
  | some g =>
    let _guess : CppDoublePos := { g with de := energy_offset }
    if res.code > 0 then .error (.nativeError (msgs res.code))
    else
      match indices with
      | .oiNone => .ok (npTA (.r1 (_CppDoublePos24Numpy (res.orbit 0))))
      | .oiOpen => .ok (npTA (.r2 ((List.range accLen).map
          (fun i => _CppDoublePos24Numpy (res.orbit i)))))
      | .oiClosed => .ok (npTA (.r2 (closedRows accLen
          (fun i => _CppDoublePos24Numpy (res.orbit i)) (List.replicate 4 0))))
      | .oiList l => .ok (npTA (.r2 (l.map
          (fun i => _CppDoublePos24Numpy (res.orbit i)))))
      | .oiOther => .error (.invalidIndices "findorbit4")

/-- Embedding of src/pyaccel/tracking.py find_orbit6, analogous to
find_orbit4 with 6-component marshalling; for indices None the orbit row is
promoted to a 1 x 6 array before the final transpose. -/
def find_orbit6 (msgs : ℤ → String) (res : NativeOrbitResult) (accLen : ℕ)
    (indices : OrbitIndices)
    (fixed_point_guess : Option (List ℚ)) : Except TrackErr NpArray :=
  match (match fixed_point_guess with
         | none => some (⟨0, 0, 0, 0, 0, 0⟩ : CppDoublePos)
         | some l => _Numpy2CppDoublePos l) with
  | none => .error .indexError
  | some _g =>
    if res.code > 0 then .error (.nativeError (msgs res.code))
    else
      match indices with
      | .oiNone => .ok (npTA (.r2 [_CppDoublePos2Numpy (res.orbit 0)]))
      | .oiOpen => .ok (npTA (.r2 ((List.range accLen).map
          (fun i => _CppDoublePos2Numpy (res.orbit i)))))
      | .oiClosed => .ok (npTA (.r2 (closedRows accLen
          (fun i => _CppDoublePos2Numpy (res.orbit i)) (List.replicate 6 0))))
      | .oiList l => .ok (npTA (.r2 (l.map
          (fun i => _CppDoublePos2Numpy (res.orbit i)))))
      | .oiOther => .error (.invalidIndices "findorbit6")

/-- Python value that is either a bare scalar (after the single-particle
simplification at the end of line_pass and ring_pass) or a per-particle
list. -/
inductive PyVal (α : Type) where
  | scalar (a : α)
  | vals (l : List α)
deriving DecidableEq, Repr

/-- Entries of a returned loss value: a scalar counts as its one entry. -/
def PyVal.entries {α : Type} : PyVal α → List α
  | .scalar a => [a]
  | .vals l => l

/-- Loss-plane lookup tuple of the source: index 0 is no loss, indices 1, 2,
3 are the planes x, y, z (src/pyaccel/tracking.py, lost_planes). -/
def lost_planes : List (Option String) := [none, some "x", some "y", some "z"]

/-- Opaque per-particle result of the native line-pass wrapper
track_linepass_wrapper: the boolean return value, the contents of the output
position vector, and the values the wrapper leaves in args.lost_plane (an
index into the 4-entry lost_planes tuple, 0 meaning no loss) and in
args.element_offset (which the native tracker advances to the element where
tracking stopped, i.e. the loss element for a lost particle). -/
structure NativeLineRes where
  retFlag : Bool
  p_out : List CppDoublePos
  lost_plane : Fin 4
  element_offset : ℕ

/-- Per-particle data accumulated by the line_pass loop. -/
structure LineStepRes where
  piece : List (List ℚ)
  lost_element : Option ℕ
  lost_plane : Option String
  retFlag : Bool
deriving DecidableEq, Repr

/-- Position block for one particle of line_pass: the final position as a
single row when indices is None, otherwise a 6 x len(indices) matrix of the
native positions at the processed indices. -/
def line_piece (r : NativeLineRes) (inds : Option (List ℕ)) :
    Except TrackErr (List (List ℚ)) :=
  match inds with
  | none => do
      let q ← ofOption .indexError r.p_out[0]?
      pure [_CppDoublePos2Numpy q]
  | some l => do
      let cols ← loopE (fun j => do
          let q ← ofOption TrackErr.indexError r.p_out[j]?
          pure (_CppDoublePos2Numpy q)) l
      pure (npT 6 cols)

/-- Body of the line_pass loop for one particle: marshal the row, call the
native wrapper, build the position block, and record the loss information
exactly as the source does: on a nonzero lost_plane it appends
args.element_offset and lost_planes[args.lost_plane], otherwise None and
None. -/
def line_step (nat : CppDoublePos → NativeLineRes) (inds : Option (List ℕ))
    (row : List ℚ) : Except TrackErr LineStepRes := do
  let p ← ofOption .indexError (_Numpy2CppDoublePos row)
  let r := nat p
  let piece ← line_piece r inds
  if r.lost_plane.val ≠ 0 then
    pure ⟨piece, some r.element_offset,
      lost_planes.getD r.lost_plane.val none, r.retFlag⟩
  else
    pure ⟨piece, none, none, r.retFlag⟩

/-- Return record of line_pass. -/
structure LinePassOut where
  particles_out : NpArray
  lost_flag : Bool
  lost_element : PyVal (Option ℕ)
  lost_plane : PyVal (Option String)
deriving DecidableEq, Repr

/-- Embedding of src/pyaccel/tracking.py line_pass.  The native wrapper is
the opaque parameter nat (the initial element_offset passed to every call is
part of its closure, matching the per-iteration reset of
args.element_offset); indices are processed as in _process_args; each
particle row is tracked in order; the output tensor is rank 2 for indices
None and rank 3 otherwise; a single particle given as a flat python list is
simplified to one lower rank with scalar loss values. -/
def line_pass (nat : CppDoublePos → NativeLineRes) (accLen : ℕ)
    (particles : PyParticles) (indices : PyIndices) :
    Except TrackErr LinePassOut := do
  let pr := _process_args particles
  let inds := _process_indices accLen indices
  let results ← loopE (line_step nat inds) pr.1
  let lost_flag := results.any (fun s => s.retFlag)
  let particles_out : NpArray :=
    match inds with
    | none => .r2 (results.map (fun s => s.piece.headD []))
    | some _ => .r3 (results.map (fun s => s.piece))
  if results.length = 1 ∧ pr.2 = false then
    pure ⟨(match particles_out with
           | .r3 t => .r2 (t.headD [])
           | .r2 m => .r1 (m.headD [])
           | .r1 v => .r1 v),
          lost_flag,
          .scalar ((results.map (fun s => s.lost_element)).headD none),
          .scalar ((results.map (fun s => s.lost_plane)).headD none)⟩
  else
    pure ⟨particles_out, lost_flag,
          .vals (results.map (fun s => s.lost_element)),
          .vals (results.map (fun s => s.lost_plane))⟩

/-- Opaque per-particle result of the native ring-pass wrapper
track_ringpass_wrapper: the boolean return value, the contents of the output
position vector (one entry per turn when a trajectory is requested), and the
values the wrapper leaves in args.lost_plane, args.lost_turn and
args.lost_element. -/
structure NativeRingRes where
  retFlag : Bool
  p_out : List CppDoublePos
  lost_plane : Fin 4
  lost_turn : ℕ
  lost_element : ℕ

/-- Values of the turn_by_turn argument of ring_pass as documented: None,
the string closed, or the string open. -/
inductive TurnByTurn where
  | tbtNone
  | tbtClosed
  | tbtOpen
deriving DecidableEq, Repr

/-- Per-particle data accumulated by the ring_pass loop. -/
structure RingStepRes where
  piece : List (List ℚ)
  lost_turn : Option ℕ
  lost_element : Option ℕ
  lost_plane : Option String
  retFlag : Bool
deriving DecidableEq, Repr

/-- Position block for one particle of ring_pass: the final position for
turn_by_turn None; the native positions of all nr_turns turns for closed;
the input row at turn 0 followed by the native positions of turns
0..nr_turns-2 for open, where writing the input row requires exactly six
components and turn index 0 requires nr_turns >= 1. -/
def ring_piece (r : NativeRingRes) (nr_turns : ℕ) (tbt : TurnByTurn)
    (row : List ℚ) : Except TrackErr (List (List ℚ)) :=
  match tbt with
  | .tbtNone => do
      let q ← ofOption .indexError r.p_out[0]?
      pure [_CppDoublePos2Numpy q]
  | .tbtClosed => do
      let cols ← loopE (fun n => do
          let q ← ofOption TrackErr.indexError r.p_out[n]?
          pure (_CppDoublePos2Numpy q)) (List.range nr_turns)
      pure (npT 6 cols)
  | .tbtOpen =>
      if nr_turns = 0 then Except.error .indexError
      else if row.length = 6 then do
        let rest ← loopE (fun n => do
            let q ← ofOption TrackErr.indexError r.p_out[n]?
            pure (_CppDoublePos2Numpy q)) (List.range (nr_turns - 1))
        pure (npT 6 (row :: rest))
      else Except.error .shapeError

/-- Body of the ring_pass loop for one particle: marshal the row, call the
native wrapper, build the position block, and record the native loss data
exactly as the source does. -/
def ring_step (nat : CppDoublePos → NativeRingRes) (nr_turns : ℕ)
    (tbt : TurnByTurn) (row : List ℚ) : Except TrackErr RingStepRes := do
  let p ← ofOption .indexError (_Numpy2CppDoublePos row)
  let r := nat p
  let piece ← ring_piece r nr_turns tbt row
  if r.lost_plane.val ≠ 0 then
    pure ⟨piece, some r.lost_turn, some r.lost_element,
      lost_planes.getD r.lost_plane.val none, r.retFlag⟩
  else
    pure ⟨piece, none, none, none, r.retFlag⟩

/-- Return record of ring_pass. -/
structure RingPassOut where
  particles_out : NpArray
  lost_flag : Bool
  lost_turn : PyVal (Option ℕ)
  lost_element : PyVal (Option ℕ)
  lost_plane : PyVal (Option String)
deriving DecidableEq, Repr

/-- Embedding of src/pyaccel/tracking.py ring_pass.  The native wrapper is
the opaque parameter nat; the particles are processed with _process_args;
the output tensor is rank 2 for turn_by_turn None and rank 3 for closed or
open; a single particle given as a flat python list is simplified to one
lower rank with scalar loss values. -/
def ring_pass (nat : CppDoublePos → NativeRingRes) (particles : PyParticles)
    (nr_turns : ℕ) (tbt : TurnByTurn) : Except TrackErr RingPassOut := do
  let pr := _process_args particles
  let results ← loopE (ring_step nat nr_turns tbt) pr.1
  let lost_flag := results.any (fun s => s.retFlag)
  let particles_out : NpArray :=
    match tbt with
    | .tbtNone => .r2 (results.map (fun s => s.piece.headD []))
    | .tbtClosed => .r3 (results.map (fun s => s.piece))
    | .tbtOpen => .r3 (results.map (fun s => s.piece))
  if results.length = 1 ∧ pr.2 = false then
    pure ⟨(match particles_out with
           | .r3 t => .r2 (t.headD [])
           | .r2 m => .r1 (m.headD [])
           | .r1 v => .r1 v),
          lost_flag,
          .scalar ((results.map (fun s => s.lost_turn)).headD none),
          .scalar ((results.map (fun s => s.lost_element)).headD none),
          .scalar ((results.map (fun s => s.lost_plane)).headD none)⟩
  else
    pure ⟨particles_out, lost_flag,
          .vals (results.map (fun s => s.lost_turn)),
          .vals (results.map (fun s => s.lost_element)),
          .vals (results.map (fun s => s.lost_plane))⟩

/-- Native ring-pass result for particle i of a processed particles
argument: the wrapper applied to the marshalled row i, when row i
marshals. -/
def ringNatAt (nat : CppDoublePos → NativeRingRes) (particles : PyParticles)
    (i : ℕ) : Option NativeRingRes :=
  (_Numpy2CppDoublePos ((_process_args particles).1.getD i [])).map nat

/-- Native line-pass result for particle i of a processed particles
argument. -/
def lineNatAt (nat : CppDoublePos → NativeLineRes) (particles : PyParticles)
    (i : ℕ) : Option NativeLineRes :=
  (_Numpy2CppDoublePos ((_process_args particles).1.getD i [])).map nat

/-- Per-particle matrices of a tracking output tensor: the list of matrices
of a rank-3 tensor, or the single matrix left by the single-particle
simplification. -/
def outMats : NpArray → List (List (List ℚ))
  | .r3 t => t
  | .r2 m => [m]
  | .r1 _ => []

/-- Concrete native ring-pass behaviour used by the C4 witness: the particle
starting at rx = 1 is lost on plane index 1 at turn 5 and element 7. -/
def natRingW : CppDoublePos → NativeRingRes := fun p =>
  if p.rx = 1 then ⟨true, [⟨9, 9, 9, 9, 9, 9⟩], 1, 5, 7⟩
  else ⟨false, [⟨8, 8, 8, 8, 8, 8⟩], 0, 0, 0⟩

/-- Concrete native line-pass behaviour used by the C5 witness: the particle
starting at rx = 1 is lost on plane index 2 with the wrapper stopping at
element 42. -/
def natLineW : CppDoublePos → NativeLineRes := fun p =>
  if p.rx = 1 then ⟨true, [⟨9, 9, 9, 9, 9, 9⟩], 2, 42⟩
  else ⟨false, [⟨8, 8, 8, 8, 8, 8⟩], 0, 0⟩

/-- Concrete native ring-pass behaviour used by the C10 witness: no loss,
one recorded turn position. -/
def natRingW2 : CppDoublePos → NativeRingRes := fun _ =>
  ⟨false, [⟨10, 11, 12, 13, 14, 15⟩], 0, 0, 0⟩

/-- C2: for every 6-component phase-space position, marshalling to the native
structure and back is the identity, the six components being taken and
restored in the fixed order rx, px, ry, py, de, dl. -/
theorem C2_marshalling_roundtrip (p : List ℚ) (h : p.length = 6) :
    (_Numpy2CppDoublePos p).map _CppDoublePos2Numpy = some p := by
  match p with
  | [a, b, c, d, e, f] =>
    simp [_Numpy2CppDoublePos, _CppDoublePos2Numpy]
  | [] | [_] | [_, _] | [_, _, _] | [_, _, _, _] | [_, _, _, _, _] =>
    simp at h
  | _ :: _ :: _ :: _ :: _ :: _ :: _ :: _ =>
    simp at h

/-- Marshalling succeeds exactly when the row has at least six entries. -/
lemma numpy2cpp_isSome (r : List ℚ) (h : 6 ≤ r.length) :
    ∃ p, _Numpy2CppDoublePos r = some p := by
  match r with
  | a :: b :: c :: d :: e :: f :: rest => exact ⟨_, rfl⟩
  | [] | [_] | [_, _] | [_, _, _] | [_, _, _, _] | [_, _, _, _, _] => simp at h

/-- When every needed key is supplied the validation loop finds nothing
missing. -/
lemma checkKeys_eq_none {keys kw : List String} (h : ∀ k ∈ keys, k ∈ kw) :
    checkKeys keys kw = none := by
  induction keys with
  | nil => rfl
  | cons k ks ih =>
    have hk : k ∈ kw := h k (by simp)
    simp only [checkKeys, if_pos hk]
    exact ih (fun x hx => h x (by simp [hx]))

/-- An exception escaping the loop comes from the body applied to some list
item. -/
lemma loopE_error {α β : Type} (f : α → Except TrackErr β) (l : List α)
    (e : TrackErr) (h : loopE f l = .error e) : ∃ a ∈ l, f a = .error e := by
  induction l with
  | nil => simp [loopE] at h
  | cons a as ih =>
    simp only [loopE, bind, Except.bind] at h
    cases hf : f a with
    | error e2 =>
      rw [hf] at h
      simp only at h
      cases h
      exact ⟨a, by simp, hf⟩
    | ok b =>
      rw [hf] at h
      simp only at h
      cases hl : loopE f as with
      | error e2 =>
        rw [hl] at h
        simp only [bind, Except.bind] at h
        cases h
        obtain ⟨x, hx, hfx⟩ := ih hl
        exact ⟨x, by simp [hx], hfx⟩
      | ok bs => rw [hl] at h; simp [bind, Except.bind, pure, Except.pure] at h

/-- The element-pass loop body only raises an IndexError or a bare
TrackingException. -/
lemma trackRow_error (track : CppDoublePos → Bool × CppDoublePos)
    (row : List ℚ) (e : TrackErr) (h : trackRow track row = .error e) :
    e = .indexError ∨ e = .trackLost := by
  unfold trackRow at h
  cases hm : _Numpy2CppDoublePos row with
  | none =>
    rw [hm] at h
    simp [ofOption, bind, Except.bind] at h
    exact Or.inl h.symm
  | some p =>
    rw [hm] at h
    simp only [ofOption, bind, Except.bind] at h
    by_cases hl : (track p).1
    · simp [hl] at h; exact Or.inr h.symm
    · simp [hl] at h

/-- When the native wrapper reports no loss and every row has at least six
entries, the element_pass loop succeeds, producing one 6-component output row
per input row. -/
lemma loopE_trackRow_ok (track : CppDoublePos → Bool × CppDoublePos)
    (hnl : ∀ p, (track p).1 = false) (rows : List (List ℚ))
    (hlen : ∀ r ∈ rows, 6 ≤ r.length) :
    ∃ outs, loopE (trackRow track) rows = .ok outs
      ∧ outs.length = rows.length ∧ ∀ o ∈ outs, o.length = 6 := by
  induction rows with
  | nil => exact ⟨[], rfl, rfl, by simp⟩
  | cons r rs ih =>
    obtain ⟨p, hp⟩ := numpy2cpp_isSome r (hlen r (by simp))
    obtain ⟨outs, houts, hlen2, hall⟩ := ih (fun x hx => hlen x (by simp [hx]))
    refine ⟨_CppDoublePos2Numpy (track p).2 :: outs, ?_, by simp [hlen2], ?_⟩
    · simp only [loopE, trackRow, hp, ofOption, bind, Except.bind, hnl p,
        Bool.false_eq_true, if_false, houts, pure, Except.pure]
    · intro o ho
      rcases List.mem_cons.mp ho with h | h
      · subst h; simp [_CppDoublePos2Numpy]
      · exact hall o h

/-- C7: element_pass validates the five keyword arguments energy,
harmonic_number, cavity_on, radiation_on, vchamber_on in that fixed order,
raises a TrackingException naming the first missing one independently of the
native tracker (hence before any accelerator is constructed or native entry
point invoked), and raises no missing-argument exception when all five are
present. -/
theorem C7_element_pass_key_validation
    (kw : List String) (track : CppDoublePos → Bool × CppDoublePos)
    (particles : PyParticles) :
    (∀ k, checkKeys keys_needed kw = some k →
        ∀ track2 : CppDoublePos → Bool × CppDoublePos,
          element_pass track2 kw particles = .error (.missingArg k))
    ∧ (checkKeys keys_needed kw
        = if "energy" ∉ kw then some "energy"
          else if "harmonic_number" ∉ kw then some "harmonic_number"
          else if "cavity_on" ∉ kw then some "cavity_on"
          else if "radiation_on" ∉ kw then some "radiation_on"
          else if "vchamber_on" ∉ kw then some "vchamber_on"
          else none)
    ∧ ((∀ k ∈ keys_needed, k ∈ kw) →
        ∀ k, element_pass track kw particles ≠ .error (.missingArg k)) := by
  refine ⟨?_, ?_, ?_⟩
  · intro k hk track2
    simp only [element_pass, hk]
  · simp only [checkKeys, keys_needed]
    split_ifs <;> simp_all
  · intro hall k
    have hnone : checkKeys keys_needed kw = none := checkKeys_eq_none hall
    simp only [element_pass, hnone]
    cases hl : loopE (trackRow track) (_process_args particles).1 with
    | error e =>
      obtain ⟨a, _, hfa⟩ := loopE_error _ _ _ hl
      rcases trackRow_error track a e hfa with h | h <;> simp [h]
    | ok outs =>
      by_cases hc : (_process_args particles).1.length = 1
          ∧ (_process_args particles).2 = false <;> simp [hc]

/-- C7 witness: with every key but cavity_on supplied, element_pass raises
the missing cavity_on exception independently of the native tracker. -/
theorem C7_element_pass_key_validation_witness :
    element_pass (fun p => (false, p))
        ["energy", "harmonic_number", "radiation_on", "vchamber_on"]
        (.flat [1, 2, 3, 4, 5, 6])
      = .error (.missingArg "cavity_on") :=
  (C7_element_pass_key_validation
      ["energy", "harmonic_number", "radiation_on", "vchamber_on"]
      (fun p => (false, p)) (.flat [1, 2, 3, 4, 5, 6])).1
    "cavity_on" (by decide) (fun p => (false, p))

/-- C1: shape inference of _process_args and the resulting output layout of
element_pass.  A flat python list or tuple of coordinates is the one case
inferred as a single particle (1 x len array, return_ndarray False); a list
of lists or tuple of tuples, a 2-D numpy array, and a 1-D numpy array
(reshaped to 1 x len) all keep return_ndarray True.  Consequently, for a
supplied tracker that loses no particle and well-sized inputs, element_pass
returns a 1-D 6-component array for a flat-list input, a 2-D array of the
same shape as the input for list-of-lists and 2-D numpy inputs, and a
1 x 6 2-D array for a 1-D numpy input. -/
theorem C1_process_args_shape_inference
    (kw : List String) (track : CppDoublePos → Bool × CppDoublePos)
    (hkw : ∀ k ∈ keys_needed, k ∈ kw)
    (hnl : ∀ p, (track p).1 = false) :
    (∀ cs : List ℚ, _process_args (.flat cs) = ([cs], false))
    ∧ (∀ rows : List (List ℚ), _process_args (.nested rows) = (rows, true))
    ∧ (∀ cs : List ℚ, _process_args (.nd1 cs) = ([cs], true))
    ∧ (∀ rows : List (List ℚ), _process_args (.nd2 rows) = (rows, true))
    ∧ (∀ cs : List ℚ, cs.length = 6 →
        ∃ v : List ℚ, element_pass track kw (.flat cs) = .ok (.r1 v)
          ∧ v.length = 6)
    ∧ (∀ rows : List (List ℚ), (∀ r ∈ rows, r.length = 6) →
        ∃ m, element_pass track kw (.nested rows) = .ok (.r2 m)
          ∧ m.length = rows.length ∧ ∀ r ∈ m, r.length = 6)
    ∧ (∀ rows : List (List ℚ), (∀ r ∈ rows, r.length = 6) →
        ∃ m, element_pass track kw (.nd2 rows) = .ok (.r2 m)
          ∧ m.length = rows.length ∧ ∀ r ∈ m, r.length = 6)
    ∧ (∀ cs : List ℚ, cs.length = 6 →
        ∃ m, element_pass track kw (.nd1 cs) = .ok (.r2 m)
          ∧ m.length = 1 ∧ ∀ r ∈ m, r.length = 6) := by
  have hnone : checkKeys keys_needed kw = none := checkKeys_eq_none hkw
  refine ⟨fun cs => rfl, fun rows => rfl, fun cs => rfl, fun rows => rfl,
    ?_, ?_, ?_, ?_⟩
  · intro cs hcs
    obtain ⟨outs, houts, hlen, hall⟩ := loopE_trackRow_ok track hnl [cs]
      (by intro r hr; simp at hr; simp [hr, hcs])
    refine ⟨outs.headD [], ?_, ?_⟩
    · simp only [element_pass, hnone, _process_args, houts]
      simp
    · match outs, hlen with
      | [o], _ => exact hall o (by simp)
  · intro rows hrows
    obtain ⟨outs, houts, hlen, hall⟩ := loopE_trackRow_ok track hnl rows
      (by intro r hr; simp [hrows r hr])
    refine ⟨outs, ?_, hlen, hall⟩
    simp only [element_pass, hnone, _process_args, houts]
    simp
  · intro rows hrows
    obtain ⟨outs, houts, hlen, hall⟩ := loopE_trackRow_ok track hnl rows
      (by intro r hr; simp [hrows r hr])
    refine ⟨outs, ?_, hlen, hall⟩
    simp only [element_pass, hnone, _process_args, houts]
    simp
  · intro cs hcs
    obtain ⟨outs, houts, hlen, hall⟩ := loopE_trackRow_ok track hnl [cs]
      (by intro r hr; simp at hr; simp [hr, hcs])
    refine ⟨outs, ?_, by simpa using hlen, hall⟩
    simp only [element_pass, hnone, _process_args, houts]
    simp

/-- C1 witness: the single-particle and many-particle shape consequences
instantiated with all keys supplied and an identity tracker on concrete
inputs. -/
theorem C1_process_args_shape_inference_witness :
    (∃ v : List ℚ,
      element_pass (fun p => (false, p)) keys_needed (.flat [1, 2, 3, 4, 5, 6])
        = .ok (.r1 v) ∧ v.length = 6)
    ∧ (∃ m, element_pass (fun p => (false, p)) keys_needed
        (.nested [[1, 2, 3, 4, 5, 6], [7, 8, 9, 10, 11, 12]]) = .ok (.r2 m)
        ∧ m.length = 2 ∧ ∀ r ∈ m, r.length = 6) :=
  have h := C1_process_args_shape_inference keys_needed (fun p => (false, p))
    (by decide) (fun p => rfl)
  ⟨h.2.2.2.2.1 [1, 2, 3, 4, 5, 6] (by decide),
   h.2.2.2.2.2.1 [[1, 2, 3, 4, 5, 6], [7, 8, 9, 10, 11, 12]] (by decide)⟩

/-- HeadD agrees with getD at index zero. -/
lemma headD_getD0 {α : Type} (l : List α) (d : α) : l.headD d = l.getD 0 d := by
  cases l <;> rfl

/-- Mapping preserves getD at in-range indices. -/
lemma getD_map_lt {α β : Type} (f : α → β) (l : List α) (i : ℕ)
    (hi : i < l.length) (dA : α) (dB : β) :
    (l.map f).getD i dB = f (l.getD i dA) := by
  rw [List.getD_eq_getElem?_getD, List.getD_eq_getElem?_getD,
    List.getElem?_map, List.getElem?_eq_getElem hi]
  rfl

/-- Row count of the transposed array is the supplied column count. -/
lemma npT_length (nc : ℕ) (m : List (List ℚ)) : (npT nc m).length = nc := by
  simp [npT]

/-- Row c of the transposed array collects entry c of every original row. -/
lemma npT_getD (nc : ℕ) (m : List (List ℚ)) (c : ℕ) (hc : c < nc) :
    (npT nc m).getD c [] = m.map (fun row => row.getD c 0) := by
  unfold npT
  rw [List.getD_eq_getElem?_getD, List.getElem?_map, List.getElem?_range hc]
  rfl

/-- The closed-indices rows array has k+1 rows. -/
lemma closedRows_length (k : ℕ) (row : ℕ → List ℚ) (z : List ℚ) :
    (closedRows k row z).length = k + 1 := by
  simp [closedRows]

/-- Entry 0 of the pre-assignment rows array. -/
lemma closedRows_aux_get0 (k : ℕ) (row : ℕ → List ℚ) (z : List ℚ) :
    ((List.range (k + 1)).map (fun i => if i < k then row i else z))[0]?
      = some (if 0 < k then row 0 else z) := by
  rw [List.getElem?_map, List.getElem?_range (by omega)]
  rfl

/-- The last row of the closed-indices array equals its first row. -/
lemma closedRows_last_eq_first (k : ℕ) (row : ℕ → List ℚ) (z : List ℚ) :
    (closedRows k row z).getD k [] = (closedRows k row z).getD 0 [] := by
  unfold closedRows
  have hlen : ((List.range (k + 1)).map
      (fun i => if i < k then row i else z)).length = k + 1 := by simp
  by_cases hk0 : k = 0
  · subst hk0; rfl
  · have hkpos : 0 < k := Nat.pos_of_ne_zero hk0
    rw [List.getD_eq_getElem?_getD, List.getElem?_set_self (by omega),
      List.getD_eq_getElem?_getD, List.getElem?_set_ne (by omega),
      closedRows_aux_get0, headD_getD0, List.getD_eq_getElem?_getD,
      closedRows_aux_get0]
    simp [hkpos]

/-- The first row of the closed-indices array has the common row width. -/
lemma closedRows_headD_length (w k : ℕ) (row : ℕ → List ℚ) (z : List ℚ)
    (hrow : ∀ i, (row i).length = w) (hz : z.length = w) :
    ((closedRows k row z).headD []).length = w := by
  unfold closedRows
  rw [headD_getD0]
  by_cases hk0 : k = 0
  · subst hk0
    rw [List.getD_eq_getElem?_getD, List.getElem?_set_self (by simp),
      headD_getD0, List.getD_eq_getElem?_getD, closedRows_aux_get0]
    simpa using hz
  · have hkpos : 0 < k := Nat.pos_of_ne_zero hk0
    rw [List.getD_eq_getElem?_getD, List.getElem?_set_ne (by omega),
      closedRows_aux_get0]
    simp [hkpos, hrow 0]

/-- Shape and wraparound properties of the transposed closed-indices orbit
array: with rows of common width w, the transpose has w rows of length k+1
and in each row the last entry equals the first. -/
lemma transposed_closedRows_props (w k : ℕ) (row : ℕ → List ℚ) (z : List ℚ)
    (hrow : ∀ i, (row i).length = w) (hz : z.length = w) :
    (npTranspose (closedRows k row z)).length = w
    ∧ ∀ c, c < w →
      ((npTranspose (closedRows k row z)).getD c []).length = k + 1
      ∧ ((npTranspose (closedRows k row z)).getD c []).getD k 0
          = ((npTranspose (closedRows k row z)).getD c []).getD 0 0 := by
  have hw : ((closedRows k row z).headD []).length = w :=
    closedRows_headD_length w k row z hrow hz
  unfold npTranspose
  rw [hw]
  refine ⟨npT_length w _, ?_⟩
  intro c hc
  rw [npT_getD w _ c hc]
  have hlen : (closedRows k row z).length = k + 1 := closedRows_length k row z
  constructor
  · simp [hlen]
  · rw [getD_map_lt _ _ k (by omega) [] 0, getD_map_lt _ _ 0 (by omega) [] 0,
      closedRows_last_eq_first]

/-- Marshalling of a 4-component guess succeeds exactly when the list has at
least four entries. -/
lemma numpy42cpp_isSome (r : List ℚ) (h : 4 ≤ r.length) :
    ∃ p, _4Numpy2CppDoublePos r = some p := by
  match r with
  | a :: b :: c :: d :: rest => exact ⟨_, rfl⟩
  | [] | [_] | [_, _] | [_, _, _] => simp at h

/-- C3 counterexample: with the native solver returning the non-positive code
0, find_orbit4 called with an invalid indices value does not return normally
but raises a TrackingException (with the invalid-indices message, not a
native error message), refuting the claim that a non-positive native code
always leads to a normal return. -/
theorem C3_find_orbit_error_counterexample :
    ¬ ((0 : ℤ) > 0)
    ∧ find_orbit4 (fun _ => "native message")
        ⟨0, fun _ => ⟨0, 0, 0, 0, 0, 0⟩⟩ 1 0 .oiOther none
      = .error (.invalidIndices "findorbit4") :=
  ⟨by decide, rfl⟩

/-- C3 amended: find_orbit4 and find_orbit6, called with a well-formed
fixed-point guess, raise a TrackingException carrying exactly the native
error message string_error_messages[r] if and only if the native solver code
r is positive; when r is not positive they return normally, with no recovery
or retry, provided the indices argument is one of the documented values
(None, open, closed, or an index sequence); an invalid indices value raises
a TrackingException with the invalid-indices message instead. -/
theorem C3_find_orbit_native_error_amended
    (msgs : ℤ → String) (res : NativeOrbitResult) (accLen : ℕ) (eoff : ℚ)
    (ind : OrbitIndices) (g4 g6 : Option (List ℚ))
    (hg4 : ∀ l, g4 = some l → 4 ≤ l.length)
    (hg6 : ∀ l, g6 = some l → 6 ≤ l.length) :
    (res.code > 0 →
      find_orbit4 msgs res accLen eoff ind g4
          = .error (.nativeError (msgs res.code))
        ∧ find_orbit6 msgs res accLen ind g6
          = .error (.nativeError (msgs res.code)))
    ∧ (∀ m, find_orbit4 msgs res accLen eoff ind g4 = .error (.nativeError m)
          ∨ find_orbit6 msgs res accLen ind g6 = .error (.nativeError m) →
        res.code > 0 ∧ m = msgs res.code)
    ∧ (¬ res.code > 0 → ind ≠ .oiOther →
        (∃ a, find_orbit4 msgs res accLen eoff ind g4 = .ok a)
        ∧ ∃ a, find_orbit6 msgs res accLen ind g6 = .ok a) := by
  have h4 : (match g4 with
      | none => some (⟨0, 0, 0, 0, 0, 0⟩ : CppDoublePos)
      | some l => _4Numpy2CppDoublePos l).isSome := by
    cases hg : g4 with
    | none => rfl
    | some l =>
      obtain ⟨p, hp⟩ := numpy42cpp_isSome l (hg4 l hg)
      simp [hp]
  have h6 : (match g6 with
      | none => some (⟨0, 0, 0, 0, 0, 0⟩ : CppDoublePos)
      | some l => _Numpy2CppDoublePos l).isSome := by
    cases hg : g6 with
    | none => rfl
    | some l =>
      obtain ⟨p, hp⟩ := numpy2cpp_isSome l (hg6 l hg)
      simp [hp]
  obtain ⟨p4, hp4⟩ := Option.isSome_iff_exists.mp h4
  obtain ⟨p6, hp6⟩ := Option.isSome_iff_exists.mp h6
  refine ⟨?_, ?_, ?_⟩
  · intro hc
    unfold find_orbit4 find_orbit6
    rw [hp4, hp6]
    simp [hc]
  · intro m hm
    by_cases hc : res.code > 0
    · refine ⟨hc, ?_⟩
      unfold find_orbit4 find_orbit6 at hm
      rw [hp4] at hm
      rw [hp6] at hm
      simp only [hc, if_pos] at hm
      rcases hm with hm | hm <;> · cases hm; rfl
    · exfalso
      unfold find_orbit4 find_orbit6 at hm
      rw [hp4] at hm
      rw [hp6] at hm
      simp only [hc, if_false] at hm
      rcases hm with hm | hm <;> cases ind <;> simp at hm
  · intro hc hind
    unfold find_orbit4 find_orbit6
    rw [hp4, hp6]
    simp only [hc, if_false]
    cases ind with
    | oiNone => exact ⟨⟨_, rfl⟩, _, rfl⟩
    | oiOpen => exact ⟨⟨_, rfl⟩, _, rfl⟩
    | oiClosed => exact ⟨⟨_, rfl⟩, _, rfl⟩
    | oiList l => exact ⟨⟨_, rfl⟩, _, rfl⟩
    | oiOther => exact absurd rfl hind

/-- C3 witness: the amended theorem instantiated on a native solver returning
the positive code 2 with a concrete message table, and on a solver returning
0 with the documented indices value None. -/
theorem C3_find_orbit_native_error_amended_witness :
    find_orbit4 (fun r => if r = 2 then "overflow" else "other")
        ⟨2, fun _ => ⟨0, 0, 0, 0, 0, 0⟩⟩ 1 0 .oiNone none
      = .error (.nativeError "overflow")
    ∧ ∃ a, find_orbit4 (fun _ => "other")
        ⟨0, fun _ => ⟨0, 0, 0, 0, 0, 0⟩⟩ 1 0 .oiNone none = .ok a :=
  ⟨((C3_find_orbit_native_error_amended
      (fun r => if r = 2 then "overflow" else "other")
      ⟨2, fun _ => ⟨0, 0, 0, 0, 0, 0⟩⟩ 1 0 .oiNone none none
      (fun l h => by cases h) (fun l h => by cases h)).1 (by decide)).1,
   ((C3_find_orbit_native_error_amended (fun _ => "other")
      ⟨0, fun _ => ⟨0, 0, 0, 0, 0, 0⟩⟩ 1 0 .oiNone none none
      (fun l h => by cases h) (fun l h => by cases h)).2.2 (by decide)
      (by simp)).1⟩

/-- C9: with the default indices None, find_orbit4 returns a 1-D array of 4
entries while find_orbit6 returns a 2-D array of shape (6, 1): the two orbit
routines do not produce the same output rank in the default-indices case. -/
theorem C9_default_indices_rank_mismatch
    (msgs : ℤ → String) (res : NativeOrbitResult) (accLen : ℕ) (eoff : ℚ)
    (hc : ¬ res.code > 0) :
    (∃ v : List ℚ, find_orbit4 msgs res accLen eoff .oiNone none
        = .ok (.r1 v) ∧ v.length = 4)
    ∧ ∃ m, find_orbit6 msgs res accLen .oiNone none = .ok (.r2 m)
        ∧ m.length = 6 ∧ ∀ r ∈ m, r.length = 1 := by
  unfold find_orbit4 find_orbit6
  simp only [hc, if_false]
  refine ⟨⟨_, rfl, rfl⟩, _, rfl, ?_, ?_⟩
  · simp [npTranspose, npT, _CppDoublePos2Numpy]
  · intro r hr
    simp only [npTranspose, npT, _CppDoublePos2Numpy] at hr
    simp only [List.mem_map] at hr
    obtain ⟨c, hcm, hcr⟩ := hr
    subst hcr
    rfl

/-- C9 witness: the two default-indices shapes on a concrete solver result. -/
theorem C9_default_indices_rank_mismatch_witness :
    (∃ v : List ℚ, find_orbit4 (fun _ => "e")
        ⟨0, fun _ => ⟨1, 2, 3, 4, 5, 6⟩⟩ 3 0 .oiNone none
        = .ok (.r1 v) ∧ v.length = 4)
    ∧ ∃ m, find_orbit6 (fun _ => "e")
        ⟨0, fun _ => ⟨1, 2, 3, 4, 5, 6⟩⟩ 3 .oiNone none = .ok (.r2 m)
        ∧ m.length = 6 ∧ ∀ r ∈ m, r.length = 1 :=
  C9_default_indices_rank_mismatch (fun _ => "e")
    ⟨0, fun _ => ⟨1, 2, 3, 4, 5, 6⟩⟩ 3 0 (by decide)

/-- C6: for every accelerator with n elements and every successful call with
indices closed, find_orbit4 returns a 2-D array with 4 rows whose second
dimension has n+1 entries and whose last column equals its first column, and
find_orbit6 likewise with 6 rows: the reported orbit at the exit of the last
element equals the orbit at the entrance of the first element. -/
theorem C6_closed_indices_wraparound
    (msgs : ℤ → String) (res : NativeOrbitResult) (accLen : ℕ) (eoff : ℚ)
    (g4 g6 : Option (List ℚ)) (out4 out6 : NpArray)
    (h4 : find_orbit4 msgs res accLen eoff .oiClosed g4 = .ok out4)
    (h6 : find_orbit6 msgs res accLen .oiClosed g6 = .ok out6) :
    (∃ M, out4 = .r2 M ∧ M.length = 4 ∧ ∀ c, c < 4 →
        (M.getD c []).length = accLen + 1
        ∧ (M.getD c []).getD accLen 0 = (M.getD c []).getD 0 0)
    ∧ ∃ M, out6 = .r2 M ∧ M.length = 6 ∧ ∀ c, c < 6 →
        (M.getD c []).length = accLen + 1
        ∧ (M.getD c []).getD accLen 0 = (M.getD c []).getD 0 0 := by
  constructor
  · unfold find_orbit4 at h4
    cases hg : (match g4 with
        | none => some (⟨0, 0, 0, 0, 0, 0⟩ : CppDoublePos)
        | some l => _4Numpy2CppDoublePos l) with
    | none => rw [hg] at h4; cases h4
    | some g =>
      rw [hg] at h4
      by_cases hc : res.code > 0
      · simp only [hc, if_true] at h4; cases h4
      · simp only [hc, if_false] at h4
        cases h4
        have hp := transposed_closedRows_props 4 accLen
          (fun i => _CppDoublePos24Numpy (res.orbit i)) (List.replicate 4 0)
          (fun i => rfl) (by simp)
        exact ⟨_, rfl, hp.1, hp.2⟩
  · unfold find_orbit6 at h6
    cases hg : (match g6 with
        | none => some (⟨0, 0, 0, 0, 0, 0⟩ : CppDoublePos)
        | some l => _Numpy2CppDoublePos l) with
    | none => rw [hg] at h6; cases h6
    | some g =>
      rw [hg] at h6
      by_cases hc : res.code > 0
      · simp only [hc, if_true] at h6; cases h6
      · simp only [hc, if_false] at h6
        cases h6
        have hp := transposed_closedRows_props 6 accLen
          (fun i => _CppDoublePos2Numpy (res.orbit i)) (List.replicate 6 0)
          (fun i => rfl) (by simp)
        exact ⟨_, rfl, hp.1, hp.2⟩

/-- C6 witness: the closed-indices shapes and wraparound on a concrete
2-element accelerator and solver result. -/
theorem C6_closed_indices_wraparound_witness :
    (∃ M, npTA (.r2 (closedRows 2
        (fun i => _CppDoublePos24Numpy (⟨(i : ℚ), 0, 0, 0, 0, 0⟩ : CppDoublePos))
        (List.replicate 4 0))) = NpArray.r2 M ∧ M.length = 4 ∧ ∀ c, c < 4 →
        (M.getD c []).length = 3
        ∧ (M.getD c []).getD 2 0 = (M.getD c []).getD 0 0)
    ∧ ∃ M, npTA (.r2 (closedRows 2
        (fun i => _CppDoublePos2Numpy (⟨(i : ℚ), 0, 0, 0, 0, 0⟩ : CppDoublePos))
        (List.replicate 6 0))) = NpArray.r2 M ∧ M.length = 6 ∧ ∀ c, c < 6 →
        (M.getD c []).length = 3
        ∧ (M.getD c []).getD 2 0 = (M.getD c []).getD 0 0 :=
  C6_closed_indices_wraparound (fun _ => "e")
    ⟨0, fun i => ⟨(i : ℚ), 0, 0, 0, 0, 0⟩⟩ 2 0 none none _ _ rfl rfl

/-- A successful loop produces one output per input. -/
lemma loopE_ok_length {α β : Type} (f : α → Except TrackErr β) :
    ∀ (l : List α) (ys : List β), loopE f l = .ok ys → ys.length = l.length := by
  intro l
  induction l with
  | nil => intro ys h; cases h; rfl
  | cons a as ih =>
    intro ys h
    simp only [loopE, bind, Except.bind] at h
    cases hf : f a with
    | error e => rw [hf] at h; cases h
    | ok b =>
      rw [hf] at h
      cases hl : loopE f as with
      | error e => rw [hl] at h; cases h
      | ok bs =>
        rw [hl] at h
        simp only [pure, Except.pure] at h
        cases h
        simp [ih bs hl]

/-- Entry i of a successful loop output is the body applied to input i. -/
lemma loopE_ok_getD {α β : Type} (f : α → Except TrackErr β) :
    ∀ (l : List α) (ys : List β), loopE f l = .ok ys →
      ∀ (i : ℕ), i < l.length → ∀ (dA : α) (dB : β),
        f (l.getD i dA) = .ok (ys.getD i dB) := by
  intro l
  induction l with
  | nil => intro ys h i hi; simp at hi
  | cons a as ih =>
    intro ys h i hi dA dB
    simp only [loopE, bind, Except.bind] at h
    cases hf : f a with
    | error e => rw [hf] at h; cases h
    | ok b =>
      rw [hf] at h
      cases hl : loopE f as with
      | error e => rw [hl] at h; cases h
      | ok bs =>
        rw [hl] at h
        simp only [pure, Except.pure] at h
        cases h
        cases i with
        | zero => simpa using hf
        | succ j =>
          have hj : j < as.length := by simpa using hi
          simpa using ih bs hl j hj dA dB

/-- Entry i of range n is i. -/
lemma range_getD (n i : ℕ) (hi : i < n) (d : ℕ) :
    (List.range n).getD i d = i := by
  rw [List.getD_eq_getElem?_getD, List.getElem?_range hi]
  rfl

/-- Loss data recorded by a successful ring_pass loop iteration: the
iteration forwards the native retFlag; when the native lost_plane index is
zero all three loss entries are None, otherwise lost_turn and lost_element
are the values reported by the native tracker and lost_plane is the
corresponding entry of the lost_planes tuple. -/
lemma ring_step_loss (nat : CppDoublePos → NativeRingRes) (nr_turns : ℕ)
    (tbt : TurnByTurn) (row : List ℚ) (s : RingStepRes) (p : CppDoublePos)
    (h : ring_step nat nr_turns tbt row = .ok s)
    (hp : _Numpy2CppDoublePos row = some p) :
    s.retFlag = (nat p).retFlag
    ∧ ((nat p).lost_plane.val = 0 →
        s.lost_turn = none ∧ s.lost_element = none ∧ s.lost_plane = none)
    ∧ ((nat p).lost_plane.val ≠ 0 →
        s.lost_turn = some (nat p).lost_turn
        ∧ s.lost_element = some (nat p).lost_element
        ∧ s.lost_plane = lost_planes.getD (nat p).lost_plane.val none) := by
  unfold ring_step at h
  rw [hp] at h
  simp only [ofOption, bind, Except.bind] at h
  cases hpc : ring_piece (nat p) nr_turns tbt row with
  | error e => rw [hpc] at h; cases h
  | ok piece =>
    rw [hpc] at h
    by_cases hl : (nat p).lost_plane.val = 0
    · simp only [hl, ne_eq, not_true_eq_false, if_false, ite_false,
        pure, Except.pure] at h
      cases h
      simp [hl]
    · simp only [ne_eq, hl, not_false_eq_true, if_true, ite_true,
        pure, Except.pure] at h
      cases h
      simp [hl]

/-- Loss data recorded by a successful line_pass loop iteration: on a
nonzero native lost_plane index the entry is the element offset the native
wrapper reports together with the lost_planes entry, otherwise None and
None. -/
lemma line_step_loss (nat : CppDoublePos → NativeLineRes)
    (inds : Option (List ℕ)) (row : List ℚ) (s : LineStepRes)
    (p : CppDoublePos) (h : line_step nat inds row = .ok s)
    (hp : _Numpy2CppDoublePos row = some p) :
    s.retFlag = (nat p).retFlag
    ∧ ((nat p).lost_plane.val = 0 →
        s.lost_element = none ∧ s.lost_plane = none)
    ∧ ((nat p).lost_plane.val ≠ 0 →
        s.lost_element = some (nat p).element_offset
        ∧ s.lost_plane = lost_planes.getD (nat p).lost_plane.val none) := by
  unfold line_step at h
  rw [hp] at h
  simp only [ofOption, bind, Except.bind] at h
  cases hpc : line_piece (nat p) inds with
  | error e => rw [hpc] at h; cases h
  | ok piece =>
    rw [hpc] at h
    by_cases hl : (nat p).lost_plane.val = 0
    · simp only [hl, ne_eq, not_true_eq_false, if_false, ite_false,
        pure, Except.pure] at h
      cases h
      simp [hl]
    · simp only [ne_eq, hl, not_false_eq_true, if_true, ite_true,
        pure, Except.pure] at h
      cases h
      simp [hl]

/-- A nonzero index into the lost_planes tuple yields x, y or z. -/
lemma lost_planes_getD_mem (v : Fin 4) (hv : v.val ≠ 0) :
    lost_planes.getD v.val none ∈ [some "x", some "y", some "z"] := by
  fin_cases v <;> simp_all [lost_planes]

/-- C4: every call to ring_pass returns lost_turn, lost_element and
lost_plane with one entry per tracked particle; a particle the native
tracker does not flag as lost gets None in all three, and a lost particle
gets one of the strings x, y, z as its plane and the turn and element
indices the native tracker reported for the loss. -/
theorem C4_ring_pass_loss_reporting
    (nat : CppDoublePos → NativeRingRes) (particles : PyParticles)
    (nr_turns : ℕ) (tbt : TurnByTurn) (out : RingPassOut)
    (h : ring_pass nat particles nr_turns tbt = .ok out) :
    (out.lost_turn.entries.length = (_process_args particles).1.length
      ∧ out.lost_element.entries.length = (_process_args particles).1.length
      ∧ out.lost_plane.entries.length = (_process_args particles).1.length)
    ∧ ∀ i, i < (_process_args particles).1.length →
        ∀ r, ringNatAt nat particles i = some r →
        (r.lost_plane.val = 0 →
          out.lost_turn.entries.getD i none = none
          ∧ out.lost_element.entries.getD i none = none
          ∧ out.lost_plane.entries.getD i none = none)
        ∧ (r.lost_plane.val ≠ 0 →
          out.lost_turn.entries.getD i none = some r.lost_turn
          ∧ out.lost_element.entries.getD i none = some r.lost_element
          ∧ out.lost_plane.entries.getD i none
              ∈ [some "x", some "y", some "z"]) := by
  unfold ring_pass at h
  simp only [bind, Except.bind] at h
  cases hres : loopE (ring_step nat nr_turns tbt) (_process_args particles).1 with
  | error e => rw [hres] at h; cases h
  | ok results =>
    rw [hres] at h
    have hlen := loopE_ok_length _ _ _ hres
    have key : ∀ i, i < (_process_args particles).1.length → ∀ r,
        ringNatAt nat particles i = some r →
        (r.lost_plane.val = 0 →
          (results.getD i ⟨[], none, none, none, false⟩).lost_turn = none
          ∧ (results.getD i ⟨[], none, none, none, false⟩).lost_element = none
          ∧ (results.getD i ⟨[], none, none, none, false⟩).lost_plane = none)
        ∧ (r.lost_plane.val ≠ 0 →
          (results.getD i ⟨[], none, none, none, false⟩).lost_turn
              = some r.lost_turn
          ∧ (results.getD i ⟨[], none, none, none, false⟩).lost_element
              = some r.lost_element
          ∧ (results.getD i ⟨[], none, none, none, false⟩).lost_plane
              ∈ [some "x", some "y", some "z"]) := by
      intro i hi r hr
      have hstep := loopE_ok_getD _ _ _ hres i hi [] ⟨[], none, none, none, false⟩
      unfold ringNatAt at hr
      cases hp : _Numpy2CppDoublePos ((_process_args particles).1.getD i []) with
      | none => rw [hp] at hr; cases hr
      | some p =>
        rw [hp] at hr
        have hnp : nat p = r := by simpa using hr
        have hloss := ring_step_loss nat nr_turns tbt _ _ p hstep hp
        rw [hnp] at hloss
        refine ⟨fun h0 => (hloss.2.1 h0), fun h0 => ?_⟩
        obtain ⟨ht, he, hpl⟩ := hloss.2.2 h0
        exact ⟨ht, he, by rw [hpl]; exact lost_planes_getD_mem r.lost_plane h0⟩
    by_cases hc : results.length = 1 ∧ (_process_args particles).2 = false
    · simp only [hc, and_self, if_true, ite_true, pure, Except.pure] at h
      cases h
      have h1 : (_process_args particles).1.length = 1 := by omega
      constructor
      · simp [PyVal.entries, h1]
      · intro i hi r hr
        have hi0 : i = 0 := by omega
        subst hi0
        have hk := key 0 hi r hr
        refine ⟨fun h0 => ?_, fun h0 => ?_⟩
        · obtain ⟨ht, he, hpl⟩ := hk.1 h0
          refine ⟨?_, ?_, ?_⟩
          · simp only [PyVal.entries, List.getD_cons_zero]
            rw [headD_getD0, getD_map_lt (fun s => s.lost_turn) results 0
              (by omega) ⟨[], none, none, none, false⟩ none]
            exact ht
          · simp only [PyVal.entries, List.getD_cons_zero]
            rw [headD_getD0, getD_map_lt (fun s => s.lost_element) results 0
              (by omega) ⟨[], none, none, none, false⟩ none]
            exact he
          · simp only [PyVal.entries, List.getD_cons_zero]
            rw [headD_getD0, getD_map_lt (fun s => s.lost_plane) results 0
              (by omega) ⟨[], none, none, none, false⟩ none]
            exact hpl
        · obtain ⟨ht, he, hpl⟩ := hk.2 h0
          refine ⟨?_, ?_, ?_⟩
          · simp only [PyVal.entries, List.getD_cons_zero]
            rw [headD_getD0, getD_map_lt (fun s => s.lost_turn) results 0
              (by omega) ⟨[], none, none, none, false⟩ none]
            exact ht
          · simp only [PyVal.entries, List.getD_cons_zero]
            rw [headD_getD0, getD_map_lt (fun s => s.lost_element) results 0
              (by omega) ⟨[], none, none, none, false⟩ none]
            exact he
          · simp only [PyVal.entries, List.getD_cons_zero]
            rw [headD_getD0, getD_map_lt (fun s => s.lost_plane) results 0
              (by omega) ⟨[], none, none, none, false⟩ none]
            exact hpl
    · simp only [hc, if_false, ite_false, pure, Except.pure] at h
      cases h
      constructor
      · simp [PyVal.entries, hlen]
      · intro i hi r hr
        have hi2 : i < results.length := by omega
        have hk := key i hi r hr
        refine ⟨fun h0 => ?_, fun h0 => ?_⟩
        · obtain ⟨ht, he, hpl⟩ := hk.1 h0
          refine ⟨?_, ?_, ?_⟩
          · simp only [PyVal.entries]
            rw [getD_map_lt (fun s => s.lost_turn) results i hi2
              ⟨[], none, none, none, false⟩ none]
            exact ht
          · simp only [PyVal.entries]
            rw [getD_map_lt (fun s => s.lost_element) results i hi2
              ⟨[], none, none, none, false⟩ none]
            exact he
          · simp only [PyVal.entries]
            rw [getD_map_lt (fun s => s.lost_plane) results i hi2
              ⟨[], none, none, none, false⟩ none]
            exact hpl
        · obtain ⟨ht, he, hpl⟩ := hk.2 h0
          refine ⟨?_, ?_, ?_⟩
          · simp only [PyVal.entries]
            rw [getD_map_lt (fun s => s.lost_turn) results i hi2
              ⟨[], none, none, none, false⟩ none]
            exact ht
          · simp only [PyVal.entries]
            rw [getD_map_lt (fun s => s.lost_element) results i hi2
              ⟨[], none, none, none, false⟩ none]
            exact he
          · simp only [PyVal.entries]
            rw [getD_map_lt (fun s => s.lost_plane) results i hi2
              ⟨[], none, none, none, false⟩ none]
            exact hpl

/-- C5: for every successful call to line_pass, the lost_element entry of
each particle the native tracker flags as lost is the element index at which
the native tracker stopped that particle, i.e. the element at which it was
lost (the source appends args.element_offset, which the native line-pass
wrapper advances to the loss element). -/
theorem C5_line_pass_lost_element
    (nat : CppDoublePos → NativeLineRes) (accLen : ℕ)
    (particles : PyParticles) (indices : PyIndices) (out : LinePassOut)
    (h : line_pass nat accLen particles indices = .ok out) :
    ∀ i, i < (_process_args particles).1.length →
      ∀ r, lineNatAt nat particles i = some r →
        r.lost_plane.val ≠ 0 →
          out.lost_element.entries.getD i none = some r.element_offset := by
  unfold line_pass at h
  simp only [bind, Except.bind] at h
  cases hres : loopE (line_step nat (_process_indices accLen indices))
      (_process_args particles).1 with
  | error e => rw [hres] at h; cases h
  | ok results =>
    rw [hres] at h
    have hlen := loopE_ok_length _ _ _ hres
    have key : ∀ i, i < (_process_args particles).1.length → ∀ r,
        lineNatAt nat particles i = some r → r.lost_plane.val ≠ 0 →
        (results.getD i ⟨[], none, none, false⟩).lost_element
          = some r.element_offset := by
      intro i hi r hr h0
      have hstep := loopE_ok_getD _ _ _ hres i hi [] ⟨[], none, none, false⟩
      unfold lineNatAt at hr
      cases hp : _Numpy2CppDoublePos ((_process_args particles).1.getD i []) with
      | none => rw [hp] at hr; cases hr
      | some p =>
        rw [hp] at hr
        have hnp : nat p = r := by simpa using hr
        have hloss := line_step_loss nat _ _ _ p hstep hp
        rw [hnp] at hloss
        exact (hloss.2.2 h0).1
    by_cases hc : results.length = 1 ∧ (_process_args particles).2 = false
    · simp only [hc, and_self, if_true, ite_true, pure, Except.pure] at h
      cases h
      intro i hi r hr h0
      have hi0 : i = 0 := by omega
      subst hi0
      simp only [PyVal.entries, List.getD_cons_zero]
      rw [headD_getD0, getD_map_lt (fun s => s.lost_element) results 0
        (by omega) ⟨[], none, none, false⟩ none]
      exact key 0 hi r hr h0
    · simp only [hc, if_false, ite_false, pure, Except.pure] at h
      cases h
      intro i hi r hr h0
      have hi2 : i < results.length := by omega
      simp only [PyVal.entries]
      rw [getD_map_lt (fun s => s.lost_element) results i hi2
        ⟨[], none, none, false⟩ none]
      exact key i hi r hr h0

/-- A successful ring_pass loop iteration carries the position block of the
marshalled particle. -/
lemma ring_step_piece (nat : CppDoublePos → NativeRingRes) (nr_turns : ℕ)
    (tbt : TurnByTurn) (row : List ℚ) (s : RingStepRes) (p : CppDoublePos)
    (h : ring_step nat nr_turns tbt row = .ok s)
    (hp : _Numpy2CppDoublePos row = some p) :
    ring_piece (nat p) nr_turns tbt row = .ok s.piece := by
  unfold ring_step at h
  rw [hp] at h
  simp only [ofOption, bind, Except.bind] at h
  cases hpc : ring_piece (nat p) nr_turns tbt row with
  | error e => rw [hpc] at h; cases h
  | ok piece =>
    rw [hpc] at h
    by_cases hl : (nat p).lost_plane.val = 0
    · simp only [hl, ne_eq, not_true_eq_false, if_false, ite_false,
        pure, Except.pure] at h
      cases h
      rfl
    · simp only [ne_eq, hl, not_false_eq_true, if_true, ite_true,
        pure, Except.pure] at h
      cases h
      rfl

/-- Layout of the open turn-by-turn position block: six coordinate rows of
nr_turns entries each, whose turn-0 entry is the input row unchanged and
whose turn-k entry (k >= 1) is the native output of turn k-1. -/
lemma ring_piece_open (r : NativeRingRes) (nr : ℕ) (row : List ℚ)
    (piece : List (List ℚ)) (h : ring_piece r nr .tbtOpen row = .ok piece)
    (hnr : 1 ≤ nr) :
    piece.length = 6 ∧ ∀ c, c < 6 →
      (piece.getD c []).length = nr
      ∧ (piece.getD c []).getD 0 0 = row.getD c 0
      ∧ ∀ k, 1 ≤ k → k < nr →
        (piece.getD c []).getD k 0
          = (_CppDoublePos2Numpy
              (r.p_out.getD (k - 1) ⟨0, 0, 0, 0, 0, 0⟩)).getD c 0 := by
  unfold ring_piece at h
  have h0 : ¬ nr = 0 := by omega
  simp only [h0, if_false, ite_false] at h
  by_cases h6 : row.length = 6
  · simp only [h6, if_true, ite_true] at h
    cases hrest : loopE (fun n => do
        let q ← ofOption TrackErr.indexError r.p_out[n]?
        pure (_CppDoublePos2Numpy q)) (List.range (nr - 1)) with
    | error e =>
      rw [hrest] at h
      simp only [bind, Except.bind] at h
      cases h
    | ok rest =>
      rw [hrest] at h
      simp only [bind, Except.bind, pure, Except.pure] at h
      cases h
      have hrl : rest.length = nr - 1 := by
        have := loopE_ok_length _ _ _ hrest
        simpa using this
      refine ⟨npT_length 6 _, ?_⟩
      intro c hc
      rw [npT_getD 6 _ c hc]
      refine ⟨by simp [hrl]; omega, ?_, ?_⟩
      · rw [getD_map_lt (fun row => row.getD c 0) (row :: rest) 0 (by simp) [] 0]
        simp
      · intro k hk1 hk2
        have hkl : k < (row :: rest).length := by simp [hrl]; omega
        rw [getD_map_lt (fun row => row.getD c 0) (row :: rest) k hkl [] 0]
        obtain ⟨j, hj⟩ : ∃ j, k = j + 1 := ⟨k - 1, by omega⟩
        subst hj
        simp only [List.getD_cons_succ, Nat.add_sub_cancel]
        have hjlt : j < (List.range (nr - 1)).length := by simp; omega
        have hstep := loopE_ok_getD _ _ _ hrest j hjlt 0 []
        rw [range_getD (nr - 1) j (by omega) 0] at hstep
        cases hq : r.p_out[j]? with
        | none => simp [ofOption, bind, Except.bind, hq] at hstep
        | some q =>
          simp only [ofOption, bind, Except.bind, hq, pure, Except.pure] at hstep
          injection hstep with h2
          rw [← h2]
          have hqd : r.p_out.getD j ⟨0, 0, 0, 0, 0, 0⟩ = q := by
            rw [List.getD_eq_getElem?_getD, hq]
            rfl
          rw [hqd]
  · simp only [h6, if_false, ite_false] at h; cases h

/-- C10: a successful call to ring_pass with turn_by_turn open and
nr_turns >= 1 returns, for each particle, a 6 x nr_turns block whose turn-0
column is the particle's initial input position unchanged and whose turn-k
column for 1 <= k < nr_turns is the native tracker's output for turn
k-1. -/
theorem C10_ring_pass_open_turn_layout
    (nat : CppDoublePos → NativeRingRes) (particles : PyParticles)
    (nr_turns : ℕ) (out : RingPassOut) (hnr : 1 ≤ nr_turns)
    (h : ring_pass nat particles nr_turns .tbtOpen = .ok out) :
    (outMats out.particles_out).length = (_process_args particles).1.length
    ∧ ∀ i, i < (_process_args particles).1.length →
      ∀ r, ringNatAt nat particles i = some r →
      ∀ c, c < 6 →
        (((outMats out.particles_out).getD i []).getD c []).getD 0 0
            = ((_process_args particles).1.getD i []).getD c 0
        ∧ ∀ k, 1 ≤ k → k < nr_turns →
          (((outMats out.particles_out).getD i []).getD c []).getD k 0
            = (_CppDoublePos2Numpy
                (r.p_out.getD (k - 1) ⟨0, 0, 0, 0, 0, 0⟩)).getD c 0 := by
  unfold ring_pass at h
  simp only [bind, Except.bind] at h
  cases hres : loopE (ring_step nat nr_turns .tbtOpen)
      (_process_args particles).1 with
  | error e => rw [hres] at h; cases h
  | ok results =>
    rw [hres] at h
    have hlen := loopE_ok_length _ _ _ hres
    have key : ∀ i, i < (_process_args particles).1.length → ∀ r,
        ringNatAt nat particles i = some r → ∀ c, c < 6 →
        ((results.getD i ⟨[], none, none, none, false⟩).piece.getD c []).getD 0 0
            = ((_process_args particles).1.getD i []).getD c 0
        ∧ ∀ k, 1 ≤ k → k < nr_turns →
          ((results.getD i ⟨[], none, none, none, false⟩).piece.getD c []).getD k 0
            = (_CppDoublePos2Numpy
                (r.p_out.getD (k - 1) ⟨0, 0, 0, 0, 0, 0⟩)).getD c 0 := by
      intro i hi r hr
      have hstep := loopE_ok_getD _ _ _ hres i hi [] ⟨[], none, none, none, false⟩
      unfold ringNatAt at hr
      cases hp : _Numpy2CppDoublePos ((_process_args particles).1.getD i []) with
      | none => rw [hp] at hr; cases hr
      | some p =>
        rw [hp] at hr
        have hnp : nat p = r := by simpa using hr
        have hpiece := ring_step_piece nat nr_turns .tbtOpen _ _ p hstep hp
        rw [hnp] at hpiece
        have hopen := ring_piece_open r nr_turns _ _ hpiece hnr
        intro c hc
        exact ⟨(hopen.2 c hc).2.1, (hopen.2 c hc).2.2⟩
    by_cases hc : results.length = 1 ∧ (_process_args particles).2 = false
    · simp only [hc, and_self, if_true, ite_true, pure, Except.pure] at h
      cases h
      have h1 : (_process_args particles).1.length = 1 := by omega
      have hmat : (results.map (fun s => s.piece)).headD []
          = (results.getD 0 ⟨[], none, none, none, false⟩).piece := by
        rw [headD_getD0, getD_map_lt (fun s => s.piece) results 0
          (by omega) ⟨[], none, none, none, false⟩ []]
      constructor
      · simp [outMats, h1]
      · intro i hi r hr c hcc
        have hi0 : i = 0 := by omega
        subst hi0
        simp only [outMats, List.getD_cons_zero, hmat]
        exact key 0 hi r hr c hcc
    · simp only [hc, if_false, ite_false, pure, Except.pure] at h
      cases h
      constructor
      · simp [outMats, hlen]
      · intro i hi r hr c hcc
        have hi2 : i < results.length := by omega
        simp only [outMats]
        rw [getD_map_lt (fun s => s.piece) results i hi2
          ⟨[], none, none, none, false⟩ []]
        exact key i hi r hr c hcc

/-- C4 witness: a single lost particle gets plane x and the native turn and
element indices, evaluated on a concrete call. -/
theorem C4_ring_pass_loss_reporting_witness :
    (PyVal.scalar (some "x") : PyVal (Option String)).entries.getD 0 none
        ∈ [some "x", some "y", some "z"]
    ∧ (PyVal.scalar (some 5) : PyVal (Option ℕ)).entries.getD 0 none
        = some (natRingW ⟨1, 0, 0, 0, 0, 0⟩).lost_turn
    ∧ (PyVal.scalar (some 7) : PyVal (Option ℕ)).entries.getD 0 none
        = some (natRingW ⟨1, 0, 0, 0, 0, 0⟩).lost_element :=
  have h := (C4_ring_pass_loss_reporting natRingW (.flat [1, 0, 0, 0, 0, 0])
    1 .tbtNone
    ⟨.r1 [9, 9, 9, 9, 9, 9], true, .scalar (some 5), .scalar (some 7),
      .scalar (some "x")⟩ rfl).2 0 (by decide)
    (natRingW ⟨1, 0, 0, 0, 0, 0⟩) rfl
  have h2 := h.2 (by decide)
  ⟨h2.2.2, h2.1, h2.2.1⟩

/-- C5 witness: the lost particle's lost_element entry is the native element
offset, evaluated on a concrete call. -/
theorem C5_line_pass_lost_element_witness :
    (PyVal.scalar (some 42) : PyVal (Option ℕ)).entries.getD 0 none
      = some (natLineW ⟨1, 0, 0, 0, 0, 0⟩).element_offset :=
  C5_line_pass_lost_element natLineW 3 (.flat [1, 0, 0, 0, 0, 0]) .iNone
    ⟨.r1 [9, 9, 9, 9, 9, 9], true, .scalar (some 42), .scalar (some "y")⟩
    rfl 0 (by decide) (natLineW ⟨1, 0, 0, 0, 0, 0⟩) rfl (by decide)

/-- C10 witness: with turn_by_turn open and 2 turns, turn 0 holds the input
coordinate and turn 1 holds the native output of turn 0, evaluated on a
concrete call. -/
theorem C10_ring_pass_open_turn_layout_witness :
    (((outMats (NpArray.r2
        [[1, 10], [2, 11], [3, 12], [4, 13], [5, 14], [6, 15]])).getD 0
        []).getD 0 []).getD 0 0
      = ((_process_args (.flat [1, 2, 3, 4, 5, 6])).1.getD 0 []).getD 0 0
    ∧ (((outMats (NpArray.r2
        [[1, 10], [2, 11], [3, 12], [4, 13], [5, 14], [6, 15]])).getD 0
        []).getD 0 []).getD 1 0
      = (_CppDoublePos2Numpy
          ((natRingW2 ⟨1, 2, 3, 4, 5, 6⟩).p_out.getD 0
            ⟨0, 0, 0, 0, 0, 0⟩)).getD 0 0 :=
  have h := (C10_ring_pass_open_turn_layout natRingW2 (.flat [1, 2, 3, 4, 5, 6])
    2 ⟨.r2 [[1, 10], [2, 11], [3, 12], [4, 13], [5, 14], [6, 15]], false,
      .scalar none, .scalar none, .scalar none⟩ (by decide) rfl).2 0 (by decide)
    (natRingW2 ⟨1, 2, 3, 4, 5, 6⟩) rfl 0 (by decide)
  ⟨h.1, h.2 1 (by decide) (by decide)⟩

/-- C8: for a single particle given as a flat python list of six coordinates
and the same native element-pass wrapper behind both entry points, the legacy
elementpass of src/tracking.py (coordinate-first 6 x Np layout) and
element_pass of src/pyaccel/tracking.py (particle-first Np x 6 layout) agree
after their single-particle simplification, for every keyword-argument list
and every wrapper behaviour. -/
theorem C8_legacy_new_elementpass_agree (kw : List String)
    (track : CppDoublePos → Bool × CppDoublePos) (a b c d e f : ℚ) :
    elementpass track kw (.flat [a, b, c, d, e, f])
      = element_pass track kw (.flat [a, b, c, d, e, f]) := by
  cases hk : checkKeys keys_needed kw with
  | some k => simp only [elementpass, element_pass, hk]
  | none =>
    rcases htr : track ⟨a, b, c, d, e, f⟩ with ⟨lost, q⟩
    have hr : List.range 6 = [0, 1, 2, 3, 4, 5] := by decide
    simp only [elementpass, element_pass, hk, legacy_process_args, _process_args,
      npTranspose, npT, npCol, loopE, trackRow, legacy_trackCol, ofOption,
      _Numpy2CppDoublePos, _CppDoublePos2Numpy, bind, Except.bind, pure,
      Except.pure]
    simp [hr, htr]
    cases lost <;> simp

/-- C2 witness: the round trip evaluated on a concrete 6-component
position. -/
theorem C2_marshalling_roundtrip_witness :
    (_Numpy2CppDoublePos [3, -1, 0, 7, 2, 5]).map _CppDoublePos2Numpy
      = some [3, -1, 0, 7, 2, 5] :=
  C2_marshalling_roundtrip [3, -1, 0, 7, 2, 5] (by decide)
